import Mathlib

/-!
Shallow embedding of `src/lib/shared/files.js` (file metadata utilities).

Paths and other JavaScript strings are modelled as `List Char`.  The host
filesystem is an abstract record of stat/lstat/readdir functions returning
`Except`; a thrown exception or a rejected promise is the `.error` case, and
a resolved promise is, over a fixed filesystem state, its settled value.
Node's posix `path` module primitives (`join`, `parse`, `normalize`, `sep`)
used by the source are modelled below, translated from their documented and
implemented behaviour, including the `preDotState` corner cases of
`posix.parse`.
-/

deriving instance DecidableEq for Except

namespace Etcher

/-- A JavaScript string, as a list of characters. -/
abbrev Str := List Char

/-- A JavaScript value, as far as this module inspects one: the operations
only distinguish strings (`_.isString`, `fs` path arguments) from everything
else. -/
inductive JSVal where
  | str (s : Str)
  | num (n : Int)
  | boolVal (b : Bool)
  | nullVal
  | undefinedVal
deriving DecidableEq

/-- Whether a `JSVal` is a string: models lodash `_.isString`. -/
def JSVal.isStr : JSVal → Bool
  | .str _ => true
  | _ => false

/-- The part of an `fs.Stats` object the module reads: `stats.isDirectory()`
and `stats.size`. -/
structure Stats where
  isDirectory : Bool
  size : Nat
deriving DecidableEq

/-- A thrown JavaScript error, as far as the module inspects one: OS errors
carry a `code` string (e.g. `"ENOENT"`); a `TypeError` (non-string path, or
calling a property that is `undefined`) has no `code` property. -/
inductive JSError where
  | fsError (code : String)
  | typeError
deriving DecidableEq

/-- The `err.code` property: `none` models JavaScript `undefined`. -/
def JSError.code : JSError → Option String
  | .fsError c => some c
  | .typeError => none

/-! ### Node posix path primitives -/

/-- Node's `path.sep` on posix. -/
def pathSep : Char := '/'

/-- JavaScript `fullpath.split(path.sep)`: split on `'/'`, keeping empty
pieces; the result is never the empty list. -/
def splitSep : Str → List Str
  | [] => [[]]
  | c :: cs =>
    match splitSep cs with
    | [] => [[]]
    | g :: gs => if c = '/' then [] :: g :: gs else (c :: g) :: gs

/-- Join segments with `'/'` between them (the string Node's `join` builds
before normalizing, and the body its `normalize` rebuilds). -/
def intercalSep : List Str → Str
  | [] => []
  | [s] => s
  | s :: rest => s ++ '/' :: intercalSep rest

/-- Last character of a string, if any. -/
def lastChar? : Str → Option Char
  | [] => none
  | [c] => some c
  | _ :: c :: cs => lastChar? (c :: cs)

/-- Whether the path starts with the separator (Node `isAbsolute`). -/
def isAbsolute (p : Str) : Bool :=
  match p with
  | c :: _ => c = '/'
  | [] => false

/-- Whether the path ends with the separator. -/
def hasTrailingSep (p : Str) : Bool :=
  match lastChar? p with
  | some c => c = '/'
  | none => false

/-- Models `base.startsWith('.')`, as used by the metadata builders. -/
def startsWithDot (s : Str) : Bool :=
  match s with
  | c :: _ => c = '.'
  | [] => false

/-- Effect of a `".."` segment on the processed-segments stack `acc` in
Node's posix `normalizeString`: pop the previous segment unless it is itself
an unresolved `".."`; with nothing to pop, keep the `".."` only when
`allowAboveRoot` (relative paths). -/
def popSeg (allowAboveRoot : Bool) (s : Str) (acc : List Str) : List Str :=
  match acc with
  | [] => if allowAboveRoot then [s] else []
  | t :: ts =>
    if t = ['.', '.'] then (if allowAboveRoot then s :: t :: ts else t :: ts)
    else ts

/-- Segment resolution of Node's posix `normalizeString`: empty and `"."`
segments are dropped; `".."` is handled by `popSeg`; other segments are
pushed. `acc` holds the processed segments in reverse. -/
def normSegs (allowAboveRoot : Bool) : List Str → List Str → List Str
  | acc, [] => acc.reverse
  | acc, s :: rest =>
    if s = [] ∨ s = ['.'] then
      normSegs allowAboveRoot acc rest
    else if s = ['.', '.'] then
      normSegs allowAboveRoot (popSeg allowAboveRoot s acc) rest
    else
      normSegs allowAboveRoot (s :: acc) rest

/-- Node's posix `path.normalize`. -/
def posixNormalize (p : Str) : Str :=
  if p = [] then ['.']
  else
    let isAbs := isAbsolute p
    let trail := hasTrailingSep p
    let body := intercalSep (normSegs (!isAbs) [] (splitSep p))
    if body = [] then
      if isAbs then ['/'] else if trail then ['.', '/'] else ['.']
    else
      let body' := if trail then body ++ ['/'] else body
      if isAbs then '/' :: body' else body'

/-- Node's posix `path.join(...parts)`: drop empty arguments, join the rest
with `'/'`, normalize; all-empty input yields `"."`. -/
def posixJoin (parts : List Str) : Str :=
  let ps := parts.filter (fun s => s ≠ [])
  if ps = [] then ['.'] else posixNormalize (intercalSep ps)

/-- Split a string at its last `'/'`: `some (before, after)` with `after`
separator-free, or `none` when it has no separator. -/
def lastSepSplit : Str → Option (Str × Str)
  | [] => none
  | c :: cs =>
    match lastSepSplit cs with
    | some (pre, post) => some (c :: pre, post)
    | none => if c = '/' then some ([], cs) else none

/-- Split a string at its last `'.'`: `some (before, after)` with `after`
dot-free, or `none` when it has no dot. -/
def lastDotSplit : Str → Option (Str × Str)
  | [] => none
  | c :: cs =>
    match lastDotSplit cs with
    | some (pre, post) => some (c :: pre, post)
    | none => if c = '.' then some ([], cs) else none

/-- Strip every trailing `'/'` (Node's parse scans past trailing
separators). -/
def dropTrailingSeps : Str → Str
  | [] => []
  | c :: cs =>
    match dropTrailingSeps cs with
    | [] => if c = '/' then [] else [c]
    | r => c :: r

/-- The result object of Node's posix `path.parse`. -/
structure PathObj where
  root : Str
  dir : Str
  base : Str
  ext : Str
  name : Str
deriving DecidableEq

/-- The `ext` component Node's posix `parse` assigns to a base: everything
from the last dot on, except that there is no extension when the base has no
dot, when its last dot is its first character, or when the base is exactly
`".."` not directly following the root slash.  `rootAdj` is true when the
base directly follows the root slash of an absolute path (Node's
`startPart = 0` with `isAbsolute`), where its `startDot === startPart + 1`
comparison fails and `"/.."` is given the extension `"."`. -/
def extOf (base : Str) (rootAdj : Bool) : Str :=
  match lastDotSplit base with
  | none => []
  | some (pre, post) =>
    if pre = [] then []
    else if base = ['.', '.'] ∧ ¬rootAdj then []
    else '.' :: post

/-- The `name` component Node's posix `parse` assigns to a base (the base
with `extOf` removed; the whole base when there is no extension). -/
def nameOf (base : Str) (rootAdj : Bool) : Str :=
  match lastDotSplit base with
  | none => base
  | some (pre, _) =>
    if pre = [] then base
    else if base = ['.', '.'] ∧ ¬rootAdj then base
    else pre

/-- Node's posix `path.parse`. -/
def posixParse (p : Str) : PathObj :=
  if p = [] then ⟨[], [], [], [], []⟩
  else
    let isAbs := isAbsolute p
    let root : Str := if isAbs then ['/'] else []
    let q := dropTrailingSeps (if isAbs then p.drop 1 else p)
    if q = [] then ⟨root, root, [], [], []⟩
    else
      match lastSepSplit q with
      | some (pre, base) => ⟨root, root ++ pre, base, extOf base false, nameOf base false⟩
      | none => ⟨root, root, q, extOf q isAbs, nameOf q isAbs⟩

/-- JavaScript `ext.replace('.', '')`: remove the first `'.'` occurrence. -/
def removeFirstDot : Str → Str
  | [] => []
  | c :: cs => if c = '.' then cs else c :: removeFirstDot cs

/-! ### The filesystem and the module's operations -/

/-- The filesystem state the module queries, fixed for the duration of a
call: `fs.statSync`, `fs.lstatSync`/`fs.lstatAsync` (within one fixed state
the blocking and promisified lstat return the same status, so one field
models both), and `fs.readdirAsync`. -/
structure FS where
  statSync : Str → Except JSError Stats
  lstat : Str → Except JSError Stats
  readdir : Str → Except JSError (List Str)

/-- Models `fs.statSync` applied to an arbitrary JavaScript value, including Node's
argument check: a non-string path throws a `TypeError`, which has no `code`
property. -/
def FS.statSyncVal (fs : FS) : JSVal → Except JSError Stats
  | .str s => fs.statSync s
  | _ => .error .typeError

/-- Models `exports.exists` from `src/lib/shared/files.js`: `Boolean(stats)` of a
successful `statSync` is `true` (a `Stats` object is truthy); a thrown error
is caught and turned into `err.code !== 'ENOENT'`.  The function is total:
no exception escapes. -/
def filesExists (fs : FS) (v : JSVal) : Bool :=
  match fs.statSyncVal v with
  | .ok _ => true
  | .error e => decide (e.code ≠ some "ENOENT")

/-- The `FileMetadata` record assembled by the metadata builders. -/
structure FileMetadata where
  basename : Str
  dirname : Str
  fullpath : Str
  extension : Str
  name : Str
  isDirectory : Bool
  isHidden : Bool
  size : Nat
deriving DecidableEq

/-- Models `exports.getFileMetadataSync` from `src/lib/shared/files.js` (the source
calls it with the `basename` argument omitted in `subpaths`, where it
defaults to `''`; the default is passed explicitly here).  The `lstatSync`
throw is the `.error` case. -/
def getFileMetadataSync (fs : FS) (dirname basename : Str) :
    Except JSError FileMetadata :=
  let fullpath := posixJoin [dirname, basename]
  let pathObj := posixParse fullpath
  let isHidden := startsWithDot pathObj.base
  match fs.lstat fullpath with
  | .error e => .error e
  | .ok stats =>
      .ok ⟨pathObj.base, pathObj.dir, fullpath, removeFirstDot pathObj.ext,
        pathObj.name, stats.isDirectory, isHidden, stats.size⟩

/-- Models `exports.getFileMetadataAsync` from `src/lib/shared/files.js`: the
settled outcome of the returned promise over the fixed filesystem state. -/
def getFileMetadataAsync (fs : FS) (dirname basename : Str) :
    Except JSError FileMetadata :=
  let fullpath := posixJoin [dirname, basename]
  let pathObj := posixParse fullpath
  let isHidden := startsWithDot pathObj.base
  (fs.lstat fullpath).map fun stats =>
    ⟨pathObj.base, pathObj.dir, fullpath, removeFirstDot pathObj.ext,
      pathObj.name, stats.isDirectory, isHidden, stats.size⟩

/-- The error of the first element, in completion order `order`, whose
outcome under `f` is a rejection; `none` when every spawned lookup
resolves. -/
def firstErrorIn (f : α → Except ε β) (xs : List α) : List Nat → Option ε
  | [] => none
  | i :: rest =>
    match xs.get? i with
    | none => firstErrorIn f xs rest
    | some x =>
      match f x with
      | .error e => some e
      | .ok _ => firstErrorIn f xs rest

/-- Evaluates `x.toOption`, written out as its own function. -/
def exToOption : Except ε β → Option β
  | .ok y => some y
  | .error _ => none

/-- Whether an `Except` outcome is a success. -/
def isOkE : Except ε β → Bool
  | .ok _ => true
  | .error _ => false

/-- Models `Bluebird.map(xs, f)` over a fixed per-element outcome function, with the
nondeterministic completion order of the logically concurrent lookups made an
explicit parameter: the aggregate promise rejects with the error of the first
lookup (in completion order) to reject, and otherwise resolves with the
results collected back into input order. -/
def bluebirdMap (f : α → Except ε β) (xs : List α) (order : List Nat) :
    Except ε (List β) :=
  match firstErrorIn f xs order with
  | some e => .error e
  | none => .ok (xs.filterMap fun x => exToOption (f x))

/-- Models `exports.getAllFilesMetadataAsync` from `src/lib/shared/files.js`,
parameterised by the completion order of its concurrent lookups. -/
def getAllFilesMetadataAsync (fs : FS) (dirname : Str) (basenames : List Str)
    (order : List Nat) : Except JSError (List FileMetadata) :=
  bluebirdMap (fun basename => getFileMetadataAsync fs dirname basename) basenames order

/-- The property `exports.getFileMetadata` that `getDirectoryContents`
invokes.  The module assigns only `exports.exists`, `exports.getFileMetadataSync`,
`exports.getFileMetadataAsync`, `exports.getAllFilesMetadataAsync`,
`exports.getDirectoryContents`, `exports.getDirectory` and `exports.subpaths`,
so this property is `undefined` and calling it throws
`TypeError: exports.getFileMetadata is not a function`, whatever the
arguments and whatever the filesystem state. -/
def getFileMetadataUndefined (_dirname _basename : Str) :
    Except JSError FileMetadata :=
  .error .typeError

/-- Models `exports.getDirectoryContents` from `src/lib/shared/files.js`:
`fs.readdirAsync(dirname)` then `Bluebird.map` of
`exports.getFileMetadata(dirname, basename)` over the entries. -/
def getDirectoryContents (fs : FS) (dirname : Str) (order : List Nat) :
    Except JSError (List FileMetadata) :=
  match fs.readdir dirname with
  | .error e => .error e
  | .ok contents => bluebirdMap (fun basename => getFileMetadataUndefined dirname basename) contents order

/-- Models `exports.getDirectory` from `src/lib/shared/files.js`. -/
def getDirectory (fs : FS) (dirname : Str) : Except JSError (List Str) :=
  fs.readdir dirname

/-- Sequential effectful map in the `Except` monad: lodash `_.map` whose
callback may throw, the first throw aborting the traversal. -/
def mapME (f : α → Except ε β) : List α → Except ε (List β)
  | [] => .ok []
  | x :: xs =>
    match f x with
    | .error e => .error e
    | .ok y =>
      match mapME f xs with
      | .error e => .error e
      | .ok ys => .ok (y :: ys)

/-- The `dirs` list `subpaths` builds from its string input: split on
`path.sep`, replace a falsy first piece (empty string, from a leading
separator) by `'/'` (`_.update(..., ['0'], root => root || '/')`), then drop
the remaining falsy pieces (`_.compact`). -/
def subpathDirs (fullpath : Str) : List Str :=
  let pieces := splitSep fullpath
  let updated : List Str :=
    match pieces with
    | [] => []
    | r :: rest => (if r = [] then ['/'] else r) :: rest
  updated.filter (fun s => s ≠ [])

/-- Models `exports.subpaths` from `src/lib/shared/files.js`: `null` (here
`.ok none`) for a non-string input; otherwise build `subpathDirs` and map
each index to the synchronous metadata of the join of the first `index + 1`
pieces (`getFileMetadataSync` called with its basename defaulted). -/
def subpaths (fs : FS) (v : JSVal) : Except JSError (Option (List FileMetadata)) :=
  match v with
  | .str fullpath =>
    let dirs := subpathDirs fullpath
    (mapME (fun index => getFileMetadataSync fs (posixJoin (dirs.take (index + 1))) [])
        (List.range dirs.length)).map fun ms => some ms
  | _ => .ok (none)

/-! ### Well-formed path components -/

/-- A plain path component: nonempty, separator-free, and not one of the
special segments `"."` and `".."` that `normalize` resolves away. -/
def SimpleSeg (s : Str) : Prop :=
  s ≠ [] ∧ '/' ∉ s ∧ s ≠ ['.'] ∧ s ≠ ['.', '.']

instance (s : Str) : Decidable (SimpleSeg s) := by
  unfold SimpleSeg; infer_instance

/-- The parent-directory string the module's records report for a normalized
absolute path assembled from `comps`: the root for no components, otherwise
the root followed by the components. -/
def dirOf (comps : List Str) : Str :=
  if comps = [] then ['/'] else '/' :: intercalSep comps

/-! ### Lemmas about the string primitives -/

theorem splitSep_exists (t : Str) : ∃ g gs, splitSep t = g :: gs := by
  cases t with
  | nil => exact ⟨[], [], rfl⟩
  | cons c cs =>
    simp only [splitSep]
    cases h : splitSep cs with
    | nil => exact ⟨[], [], rfl⟩
    | cons g gs =>
      by_cases hc : c = '/'
      · exact ⟨[], g :: gs, by simp [hc]⟩
      · exact ⟨c :: g, gs, by simp [hc]⟩

theorem splitSep_cons_sep (t : Str) : splitSep ('/' :: t) = [] :: splitSep t := by
  obtain ⟨g, gs, h⟩ := splitSep_exists t
  simp [splitSep, h]

theorem splitSep_append_noSep (s t : Str) (hs : '/' ∉ s) :
    ∀ g gs, splitSep t = g :: gs → splitSep (s ++ t) = (s ++ g) :: gs := by
  induction s with
  | nil => intro g gs h; simpa using h
  | cons c s' ih =>
    intro g gs h
    have hc : c ≠ '/' := fun e => hs (by simp [e])
    have h' := ih (fun m => hs (by simp [m])) g gs h
    simp [splitSep, h', hc]

theorem splitSep_noSep (s : Str) (hs : '/' ∉ s) : splitSep s = [s] := by
  have := splitSep_append_noSep s [] hs [] [] rfl
  simpa using this

theorem splitSep_intercal :
    ∀ comps : List Str, comps ≠ [] → (∀ s ∈ comps, '/' ∉ s) →
      splitSep (intercalSep comps) = comps
  | [], h, _ => absurd rfl h
  | [c], _, h => by
    simpa [intercalSep] using splitSep_noSep c (h c (by simp))
  | c :: c' :: cs, _, h => by
    have ih := splitSep_intercal (c' :: cs) (by simp) (fun s hs => h s (by simp [hs]))
    have h2 : splitSep ('/' :: intercalSep (c' :: cs)) = [] :: c' :: cs := by
      rw [splitSep_cons_sep, ih]
    have h3 := splitSep_append_noSep c ('/' :: intercalSep (c' :: cs)) (h c (by simp))
      [] (c' :: cs) h2
    simpa [intercalSep] using h3

theorem intercal_snoc :
    ∀ (l : List Str) (x : Str), l ≠ [] →
      intercalSep (l ++ [x]) = intercalSep l ++ '/' :: x
  | [], _, h => absurd rfl h
  | [c], x, _ => by simp [intercalSep]
  | c :: c' :: cs, x, _ => by
    have ih := intercal_snoc (c' :: cs) x (by simp)
    calc intercalSep ((c :: c' :: cs) ++ [x])
        = c ++ '/' :: intercalSep ((c' :: cs) ++ [x]) := rfl
      _ = c ++ '/' :: (intercalSep (c' :: cs) ++ '/' :: x) := by rw [ih]
      _ = (c ++ '/' :: intercalSep (c' :: cs)) ++ '/' :: x := by simp
      _ = intercalSep (c :: c' :: cs) ++ '/' :: x := rfl

theorem intercal_ne_nil (c : Str) (cs : List Str) (hc : c ≠ []) :
    intercalSep (c :: cs) ≠ [] := by
  cases cs with
  | nil => simpa [intercalSep] using hc
  | cons c' cs' => simp [intercalSep, hc]

theorem lastChar?_cons (a : Char) (t : Str) (ht : t ≠ []) :
    lastChar? (a :: t) = lastChar? t := by
  cases t with
  | nil => exact absurd rfl ht
  | cons b t' => rfl

theorem lastChar?_append (s t : Str) (ht : t ≠ []) :
    lastChar? (s ++ t) = lastChar? t := by
  induction s with
  | nil => rfl
  | cons a s' ih =>
    have hne : s' ++ t ≠ [] := by
      intro h
      exact ht (List.append_eq_nil.mp h).2
    rw [List.cons_append, lastChar?_cons a (s' ++ t) hne, ih]

theorem lastChar?_mem : ∀ (s : Str) (c : Char), lastChar? s = some c → c ∈ s
  | [], c, h => by simp [lastChar?] at h
  | [a], c, h => by
    simp [lastChar?] at h
    simp [h]
  | a :: b :: t, c, h => by
    have := lastChar?_mem (b :: t) c (by simpa [lastChar?] using h)
    simp [this]

theorem intercal_lastChar_ne_sep :
    ∀ comps : List Str, (∀ s ∈ comps, s ≠ [] ∧ '/' ∉ s) →
      ∀ c, lastChar? (intercalSep comps) = some c → c ≠ '/'
  | [], _, c, h => by simp [intercalSep, lastChar?] at h
  | [s], h, c, hl => by
    obtain ⟨h1, h2⟩ := h s (by simp)
    intro e
    subst e
    exact h2 (lastChar?_mem s '/' (by simpa [intercalSep] using hl))
  | s :: s' :: ss, h, c, hl => by
    have ih := intercal_lastChar_ne_sep (s' :: ss) (fun x hx => h x (by simp [hx]))
    have hne : intercalSep (s' :: ss) ≠ [] := intercal_ne_nil s' ss (h s' (by simp)).1
    have hunf : intercalSep (s :: s' :: ss) = s ++ '/' :: intercalSep (s' :: ss) := rfl
    rw [hunf] at hl
    apply ih c
    rwa [lastChar?_append s _ (by simp), lastChar?_cons '/' _ hne] at hl

theorem dropTrailingSeps_eq_self :
    ∀ (p : Str) (c : Char), lastChar? p = some c → c ≠ '/' → dropTrailingSeps p = p
  | [], c, h, _ => by simp [lastChar?] at h
  | [a], c, h, hc => by
    simp [lastChar?] at h
    subst h
    simp [dropTrailingSeps, hc]
  | a :: b :: t, c, h, hc => by
    have ih := dropTrailingSeps_eq_self (b :: t) c (by simpa [lastChar?] using h) hc
    show (match dropTrailingSeps (b :: t) with
      | [] => if a = '/' then [] else [a]
      | r => a :: r) = a :: b :: t
    rw [ih]

theorem lastSepSplit_noSep (s : Str) (hs : '/' ∉ s) : lastSepSplit s = none := by
  induction s with
  | nil => rfl
  | cons c cs ih =>
    have hc : c ≠ '/' := fun e => hs (by simp [e])
    simp [lastSepSplit, ih (fun m => hs (by simp [m])), hc]

theorem lastSepSplit_append (a post : Str) (hp : '/' ∉ post) :
    lastSepSplit (a ++ '/' :: post) = some (a, post) := by
  induction a with
  | nil => simp [lastSepSplit, lastSepSplit_noSep post hp]
  | cons c a' ih => simp [lastSepSplit, ih]

theorem normSegs_simple (a : Bool) :
    ∀ (segs : List Str) (acc : List Str), (∀ s ∈ segs, SimpleSeg s) →
      normSegs a acc segs = acc.reverse ++ segs
  | [], acc, _ => by simp [normSegs]
  | s :: rest, acc, h => by
    obtain ⟨h1, h2, h3, h4⟩ := h s (by simp)
    have ih := normSegs_simple a rest (s :: acc) (fun x hx => h x (by simp [hx]))
    show (if s = [] ∨ s = ['.'] then normSegs a acc rest
      else if s = ['.', '.'] then normSegs a (popSeg a s acc) rest
      else normSegs a (s :: acc) rest) = acc.reverse ++ s :: rest
    rw [if_neg (by simp [h1, h3]), if_neg h4, ih]
    simp

theorem normSegs_skip_empty (a : Bool) (acc : List Str) (rest : List Str) :
    normSegs a acc ([] :: rest) = normSegs a acc rest := by
  show (if ([] : Str) = [] ∨ ([] : Str) = ['.'] then normSegs a acc rest
    else if ([] : Str) = ['.', '.'] then normSegs a (popSeg a [] acc) rest
    else normSegs a ([] :: acc) rest) = normSegs a acc rest
  rw [if_pos (Or.inl rfl)]

/-! ### Normalization and join on well-formed absolute paths -/

theorem hasTrailingSep_root_intercal (comps : List Str)
    (h : ∀ s ∈ comps, s ≠ [] ∧ '/' ∉ s) (hic : intercalSep comps ≠ []) :
    hasTrailingSep ('/' :: intercalSep comps) = false := by
  simp only [hasTrailingSep]
  rw [lastChar?_cons '/' _ hic]
  cases hlc : lastChar? (intercalSep comps) with
  | none => rfl
  | some x =>
    have hx := intercal_lastChar_ne_sep comps h x hlc
    simp [hx]

theorem posixNormalize_abs :
    ∀ comps : List Str, (∀ s ∈ comps, SimpleSeg s) → comps ≠ [] →
      posixNormalize ('/' :: intercalSep comps) = '/' :: intercalSep comps
  | [], _, hne => absurd rfl hne
  | c :: cs, h, _ => by
    have hic : intercalSep (c :: cs) ≠ [] := intercal_ne_nil c cs (h c (by simp)).1
    have habs : isAbsolute ('/' :: intercalSep (c :: cs)) = true := by simp [isAbsolute]
    have htrail := hasTrailingSep_root_intercal (c :: cs)
      (fun s hs => ⟨(h s hs).1, (h s hs).2.1⟩) hic
    have hsplit : splitSep ('/' :: intercalSep (c :: cs)) = [] :: c :: cs := by
      rw [splitSep_cons_sep, splitSep_intercal (c :: cs) (by simp) (fun s hs => (h s hs).2.1)]
    have hsegs : normSegs false [] ([] :: c :: cs) = c :: cs := by
      rw [normSegs_skip_empty]
      simpa using normSegs_simple false (c :: cs) [] h
    simp [posixNormalize, habs, htrail, hsplit, hsegs, hic]

theorem posixNormalize_abs2 :
    ∀ comps : List Str, (∀ s ∈ comps, SimpleSeg s) → comps ≠ [] →
      posixNormalize ('/' :: '/' :: intercalSep comps) = '/' :: intercalSep comps
  | [], _, hne => absurd rfl hne
  | c :: cs, h, _ => by
    have hic : intercalSep (c :: cs) ≠ [] := intercal_ne_nil c cs (h c (by simp)).1
    have habs : isAbsolute ('/' :: '/' :: intercalSep (c :: cs)) = true := by
      simp [isAbsolute]
    have htrail : hasTrailingSep ('/' :: '/' :: intercalSep (c :: cs)) = false := by
      have h1 := hasTrailingSep_root_intercal (c :: cs)
        (fun s hs => ⟨(h s hs).1, (h s hs).2.1⟩) hic
      simp only [hasTrailingSep] at h1 ⊢
      rwa [lastChar?_cons '/' _ (by simp)]
    have hsplit : splitSep ('/' :: '/' :: intercalSep (c :: cs)) = [] :: [] :: c :: cs := by
      rw [splitSep_cons_sep, splitSep_cons_sep,
        splitSep_intercal (c :: cs) (by simp) (fun s hs => (h s hs).2.1)]
    have hsegs : normSegs false [] ([] :: [] :: c :: cs) = c :: cs := by
      rw [normSegs_skip_empty, normSegs_skip_empty]
      simpa using normSegs_simple false (c :: cs) [] h
    simp [posixNormalize, habs, htrail, hsplit, hsegs, hic]

theorem posixNormalize_root : posixNormalize ['/'] = ['/'] := by decide

theorem posixJoin_pair (a b : Str) (ha : a ≠ []) (hb : b ≠ []) :
    posixJoin [a, b] = posixNormalize (a ++ '/' :: b) := by
  simp [posixJoin, intercalSep, ha, hb]

theorem posixJoin_single (p : Str) (hp : p ≠ []) : posixJoin [p, []] = posixNormalize p := by
  simp [posixJoin, intercalSep, hp]

theorem posixJoin_root_comps :
    ∀ comps : List Str, (∀ s ∈ comps, SimpleSeg s) →
      posixJoin (['/'] :: comps) = if comps = [] then ['/'] else '/' :: intercalSep comps
  | [], _ => by decide
  | c :: cs, h => by
    have hfil : (['/'] :: c :: cs).filter (fun s => s ≠ []) = ['/'] :: c :: cs := by
      rw [List.filter_eq_self]
      intro a ha
      rcases List.mem_cons.mp ha with h1 | h2
      · simp [h1]
      · simpa using (h a h2).1
    have hint : intercalSep (['/'] :: c :: cs) = '/' :: '/' :: intercalSep (c :: cs) := rfl
    simp only [posixJoin, hfil, hint, if_neg (by simp : ¬(['/'] :: c :: cs = []))]
    rw [posixNormalize_abs2 (c :: cs) h (by simp)]
    simp

/-- The list `dirOf comps` is the join of the root marker with `comps`: the path the
`subpaths` enumeration computes for the corresponding level. -/
theorem posixJoin_dirOf (comps : List Str) (h : ∀ s ∈ comps, SimpleSeg s) :
    posixJoin (['/'] :: comps) = dirOf comps := by
  rw [posixJoin_root_comps comps h, dirOf]

theorem posixNormalize_dirOf (comps : List Str) (h : ∀ s ∈ comps, SimpleSeg s) :
    posixNormalize (dirOf comps) = dirOf comps := by
  by_cases hne : comps = []
  · subst hne
    simpa [dirOf] using posixNormalize_root
  · rw [dirOf, if_neg hne]
    exact posixNormalize_abs comps h hne

/-! ### The parse of a well-formed absolute path, and the metadata record -/

/-- The extension string (leading dot already stripped) the metadata builders
report for a plain basename `n`: the piece after the last dot of `n`, or
empty when `n` has no dot or its last dot is its first character (pure
dotfile). -/
def dotExtension (n : Str) : Str :=
  match lastDotSplit n with
  | some (pre, post) => if pre = [] then [] else post
  | none => []

/-- The `name` component the metadata builders report for a plain basename
`n`: the piece before the last dot of `n`, or all of `n` when `n` has no dot
or its last dot is its first character. -/
def dotName (n : Str) : Str :=
  match lastDotSplit n with
  | some (pre, _) => if pre = [] then n else pre
  | none => n

theorem removeFirstDot_extOf (n : Str) (hn : n ≠ ['.', '.']) :
    removeFirstDot (extOf n false) = dotExtension n := by
  unfold extOf dotExtension
  cases h : lastDotSplit n with
  | none => rfl
  | some pp =>
    obtain ⟨pre, post⟩ := pp
    by_cases hpre : pre = []
    · simp [hpre, removeFirstDot]
    · simp [hpre, hn, removeFirstDot]

theorem nameOf_eq_dotName (n : Str) (hn : n ≠ ['.', '.']) :
    nameOf n false = dotName n := by
  unfold nameOf dotName
  cases h : lastDotSplit n with
  | none => rfl
  | some pp =>
    obtain ⟨pre, post⟩ := pp
    by_cases hpre : pre = []
    · simp [hpre]
    · simp [hpre, hn]

theorem extOf_rootAdj_irrel (n : Str) (hn : n ≠ ['.', '.']) (b : Bool) :
    extOf n b = extOf n false := by
  unfold extOf
  cases h : lastDotSplit n with
  | none => rfl
  | some pp =>
    obtain ⟨pre, post⟩ := pp
    by_cases hpre : pre = [] <;> simp [hpre, hn]

theorem nameOf_rootAdj_irrel (n : Str) (hn : n ≠ ['.', '.']) (b : Bool) :
    nameOf n b = nameOf n false := by
  unfold nameOf
  cases h : lastDotSplit n with
  | none => rfl
  | some pp =>
    obtain ⟨pre, post⟩ := pp
    by_cases hpre : pre = [] <;> simp [hpre, hn]

theorem lastChar?_isSome : ∀ t : Str, t ≠ [] → ∃ c, lastChar? t = some c
  | [], h => absurd rfl h
  | [a], _ => ⟨a, rfl⟩
  | a :: b :: t, _ => by
    obtain ⟨c, hc⟩ := lastChar?_isSome (b :: t) (by simp)
    exact ⟨c, by simpa [lastChar?] using hc⟩

theorem posixParse_abs (pre : List Str) (n : Str)
    (hpre : ∀ s ∈ pre, s ≠ [] ∧ '/' ∉ s) (hn1 : n ≠ []) (hn2 : '/' ∉ n)
    (hn3 : n ≠ ['.', '.']) :
    posixParse ('/' :: intercalSep (pre ++ [n])) =
      ⟨['/'], dirOf pre, n, extOf n false, nameOf n false⟩ := by
  have hall : ∀ s ∈ pre ++ [n], s ≠ [] ∧ '/' ∉ s := by
    intro s hs
    rcases List.mem_append.mp hs with h | h
    · exact hpre s h
    · simp only [List.mem_singleton] at h
      exact h ▸ ⟨hn1, hn2⟩
  have hne : pre ++ [n] ≠ [] := by simp
  have ht : intercalSep (pre ++ [n]) ≠ [] := by
    cases hp : pre ++ [n] with
    | nil => exact absurd hp hne
    | cons c cs =>
      exact hp ▸ intercal_ne_nil c cs (hall c (hp ▸ (by simp))).1
  have hq : dropTrailingSeps (intercalSep (pre ++ [n])) = intercalSep (pre ++ [n]) := by
    obtain ⟨c, hc⟩ := lastChar?_isSome _ ht
    exact dropTrailingSeps_eq_self _ c hc (intercal_lastChar_ne_sep _ hall c hc)
  have habs : ∀ t : Str, isAbsolute ('/' :: t) = true := by intro t; simp [isAbsolute]
  cases hpre0 : pre with
  | nil =>
    have hint : intercalSep ([] ++ [n]) = n := rfl
    have hsep : lastSepSplit n = none := lastSepSplit_noSep n hn2
    subst hpre0
    rw [hint] at ht hq ⊢
    simp [posixParse, habs, hq, hn1, hsep, dirOf,
      extOf_rootAdj_irrel n hn3 true, nameOf_rootAdj_irrel n hn3 true]
  | cons c cs =>
    have hint : intercalSep (pre ++ [n]) = intercalSep pre ++ '/' :: n :=
      intercal_snoc pre n (by simp [hpre0])
    have hsep : lastSepSplit (intercalSep (pre ++ [n])) = some (intercalSep pre, n) := by
      rw [hint]
      exact lastSepSplit_append _ n hn2
    subst hpre0
    simp only [List.cons_append] at hq ht hsep
    simp [posixParse, habs, hq, ht, hsep, dirOf]

theorem posixJoin_dirOf_simple (pre : List Str) (n : Str)
    (hpre : ∀ s ∈ pre, SimpleSeg s) (hn : SimpleSeg n) :
    posixJoin [dirOf pre, n] = '/' :: intercalSep (pre ++ [n]) := by
  obtain ⟨hn1, hn2, hn3, hn4⟩ := hn
  have hd : dirOf pre ≠ [] := by
    unfold dirOf
    split <;> simp
  rw [posixJoin_pair _ n hd hn1]
  by_cases hpre0 : pre = []
  · subst hpre0
    have hsn : ∀ s ∈ [n], SimpleSeg s := by
      intro s hs
      simp only [List.mem_singleton] at hs
      exact hs ▸ ⟨hn1, hn2, hn3, hn4⟩
    have heq : dirOf [] ++ '/' :: n = '/' :: '/' :: intercalSep [n] := by
      simp [dirOf, intercalSep]
    rw [heq, posixNormalize_abs2 [n] hsn (by simp)]
    rfl
  · have hall : ∀ s ∈ pre ++ [n], SimpleSeg s := by
      intro s hs
      rcases List.mem_append.mp hs with h | h
      · exact hpre s h
      · simp only [List.mem_singleton] at h
        exact h ▸ ⟨hn1, hn2, hn3, hn4⟩
    have heq : dirOf pre ++ '/' :: n = '/' :: intercalSep (pre ++ [n]) := by
      rw [dirOf, if_neg hpre0, intercal_snoc pre n hpre0]
      rfl
    rw [heq, posixNormalize_abs (pre ++ [n]) hall (by simp)]

/-- What the blocking metadata builder computes on a normalized absolute
directory `dirOf pre` and a plain basename `n`: the record's `basename` is
`n` itself, its `dirname` is the directory, its `fullpath` their join, its
extension and name come from the last dot of `n`, and its `isHidden` flag is
the leading-dot test on `n`. -/
theorem getFileMetadataSync_simple (fs : FS) (pre : List Str) (n : Str)
    (hpre : ∀ s ∈ pre, SimpleSeg s) (hn : SimpleSeg n) :
    getFileMetadataSync fs (dirOf pre) n =
      (fs.lstat ('/' :: intercalSep (pre ++ [n]))).map fun st =>
        ⟨n, dirOf pre, '/' :: intercalSep (pre ++ [n]), dotExtension n, dotName n,
          st.isDirectory, startsWithDot n, st.size⟩ := by
  obtain ⟨hn1, hn2, hn3, hn4⟩ := hn
  have hjoin := posixJoin_dirOf_simple pre n hpre ⟨hn1, hn2, hn3, hn4⟩
  have hparse := posixParse_abs pre n (fun s hs => ⟨(hpre s hs).1, (hpre s hs).2.1⟩) hn1 hn2 hn4
  simp only [getFileMetadataSync, hjoin, hparse]
  cases h : fs.lstat ('/' :: intercalSep (pre ++ [n])) <;>
    simp [h, Except.map, removeFirstDot_extOf n hn4, nameOf_eq_dotName n hn4]

/-- The blocking and the promisified metadata builders are, over a fixed
filesystem state, the same function. -/
theorem getFileMetadata_sync_eq_async (fs : FS) (d b : Str) :
    getFileMetadataSync fs d b = getFileMetadataAsync fs d b := by
  simp only [getFileMetadataSync, getFileMetadataAsync]
  cases h : fs.lstat (posixJoin [d, b]) <;> simp [h, Except.map]

/-! ### Lemmas about the concurrent and sequential maps -/

theorem isOkE_iff (e : Except ε β) : isOkE e = true ↔ ∃ y, e = .ok y := by
  cases e <;> simp [isOkE]

theorem firstErrorIn_cons (f : α → Except ε β) (xs : List α) (j : Nat) (rest : List Nat) :
    firstErrorIn f xs (j :: rest) =
      match xs.get? j with
      | none => firstErrorIn f xs rest
      | some x =>
        match f x with
        | .error e => some e
        | .ok _ => firstErrorIn f xs rest := rfl

theorem firstErrorIn_none_all (f : α → Except ε β) (xs : List α) (order : List Nat)
    (h : firstErrorIn f xs order = none) :
    ∀ i ∈ order, ∀ x, xs.get? i = some x → isOkE (f x) = true := by
  induction order with
  | nil => intro i hi; simp at hi
  | cons j rest ih =>
    rw [firstErrorIn_cons] at h
    have hrest : firstErrorIn f xs rest = none := by
      cases hj : xs.get? j with
      | none =>
        rw [hj] at h
        exact h
      | some x =>
        rw [hj] at h
        have h2 : (match f x with
            | Except.error e => some e
            | Except.ok _ => firstErrorIn f xs rest) = none := h
        cases hf : f x with
        | error e =>
          rw [hf] at h2
          exact absurd h2 (by simp)
        | ok y =>
          rw [hf] at h2
          exact h2
    intro i hi x hx
    rcases List.mem_cons.mp hi with rfl | hmem
    · rw [hx] at h
      have h2 : (match f x with
          | Except.error e => some e
          | Except.ok _ => firstErrorIn f xs rest) = none := h
      cases hf : f x with
      | error e =>
        rw [hf] at h2
        exact absurd h2 (by simp)
      | ok y => simp [isOkE]
    · exact ih hrest i hmem x hx

theorem firstErrorIn_some_spec (f : α → Except ε β) (xs : List α) (order : List Nat)
    (e : ε) (h : firstErrorIn f xs order = some e) :
    ∃ x ∈ xs, f x = .error e := by
  induction order with
  | nil => simp [firstErrorIn] at h
  | cons j rest ih =>
    rw [firstErrorIn_cons] at h
    cases hj : xs.get? j with
    | none =>
      rw [hj] at h
      exact ih h
    | some x =>
      rw [hj] at h
      have h2 : (match f x with
          | Except.error e => some e
          | Except.ok _ => firstErrorIn f xs rest) = some e := h
      cases hf : f x with
      | error e' =>
        rw [hf] at h2
        simp only [Option.some.injEq] at h2
        exact ⟨x, List.get?_mem hj, h2 ▸ hf⟩
      | ok y =>
        rw [hf] at h2
        exact ih h2

theorem bluebirdMap_all_ok (f : α → Except ε β) (xs : List α) (order : List Nat)
    (h : ∀ x ∈ xs, isOkE (f x) = true) :
    bluebirdMap f xs order = .ok (xs.filterMap fun x => exToOption (f x)) := by
  have hnone : firstErrorIn f xs order = none := by
    cases hfe : firstErrorIn f xs order with
    | none => rfl
    | some e =>
      obtain ⟨x, hx, hfx⟩ := firstErrorIn_some_spec f xs order e hfe
      have hok := h x hx
      rw [hfx] at hok
      simp [isOkE] at hok
  simp [bluebirdMap, hnone]

theorem bluebirdMap_fail (f : α → Except ε β) (xs : List α) (order : List Nat)
    (hcov : ∀ i < xs.length, i ∈ order)
    (hfail : ∃ x ∈ xs, isOkE (f x) = false) :
    ∃ e, bluebirdMap f xs order = .error e ∧ ∃ x ∈ xs, f x = .error e := by
  cases hfe : firstErrorIn f xs order with
  | some e =>
    exact ⟨e, by simp [bluebirdMap, hfe], firstErrorIn_some_spec f xs order e hfe⟩
  | none =>
    exfalso
    obtain ⟨x, hx, hbad⟩ := hfail
    obtain ⟨i, hi⟩ := List.get?_of_mem hx
    have hilt : i < xs.length := (List.get?_eq_some.mp hi).1
    have hok := firstErrorIn_none_all f xs order hfe i (hcov i hilt) x hi
    rw [hok] at hbad
    cases hbad

theorem filterMap_ok_length (f : α → Except ε β) :
    ∀ xs : List α, (∀ x ∈ xs, isOkE (f x) = true) →
      (xs.filterMap fun x => exToOption (f x)).length = xs.length
  | [], _ => rfl
  | x :: rest, h => by
    obtain ⟨y, hy⟩ := (isOkE_iff (f x)).mp (h x (by simp))
    have hsome : (fun z => exToOption (f z)) x = some y := by
      show exToOption (f x) = some y
      rw [hy]
      rfl
    have ih := filterMap_ok_length f rest (fun z hz => h z (by simp [hz]))
    rw [@List.filterMap_cons_some _ _ (fun z => exToOption (f z)) x rest y hsome,
      List.length_cons, ih, List.length_cons]

theorem filterMap_ok_get? (f : α → Except ε β) :
    ∀ xs : List α, (∀ x ∈ xs, isOkE (f x) = true) → ∀ i,
      (xs.filterMap fun x => exToOption (f x)).get? i
        = (xs.get? i).bind fun x => exToOption (f x)
  | [], _, i => by simp
  | x :: rest, h, i => by
    obtain ⟨y, hy⟩ := (isOkE_iff (f x)).mp (h x (by simp))
    have hsome : (fun z => exToOption (f z)) x = some y := by
      show exToOption (f x) = some y
      rw [hy]
      rfl
    cases i with
    | zero => simp [@List.filterMap_cons_some _ _ (fun z => exToOption (f z)) x rest y hsome, hsome]
    | succ j =>
      have ih := filterMap_ok_get? f rest (fun z hz => h z (by simp [hz])) j
      simpa [@List.filterMap_cons_some _ _ (fun z => exToOption (f z)) x rest y hsome] using ih

theorem mapME_map (f : β → Except ε γ) (g : α → β) :
    ∀ l : List α, mapME f (l.map g) = mapME (fun x => f (g x)) l
  | [] => rfl
  | x :: rest => by
    simp only [List.map_cons, mapME, mapME_map f g rest]

theorem mapME_meta_fullpaths (fs : FS) :
    ∀ paths : List Str,
      (∀ p ∈ paths, p ≠ [] ∧ posixNormalize p = p ∧ isOkE (fs.lstat p) = true) →
      ∃ ms, mapME (fun p => getFileMetadataSync fs p []) paths = .ok ms ∧
        ms.map (fun m => m.fullpath) = paths
  | [], _ => ⟨[], rfl, rfl⟩
  | p :: rest, h => by
    obtain ⟨hp, hfix, hok⟩ := h p (by simp)
    obtain ⟨st, hst⟩ := (isOkE_iff _).mp hok
    obtain ⟨ms, hms, hmap⟩ := mapME_meta_fullpaths fs rest (fun q hq => h q (by simp [hq]))
    have hcall : getFileMetadataSync fs p [] =
        .ok ⟨(posixParse p).base, (posixParse p).dir, p, removeFirstDot (posixParse p).ext,
          (posixParse p).name, st.isDirectory, startsWithDot (posixParse p).base, st.size⟩ := by
      simp only [getFileMetadataSync, posixJoin_single p hp, hfix, hst]
    refine ⟨(⟨(posixParse p).base, (posixParse p).dir, p, removeFirstDot (posixParse p).ext,
      (posixParse p).name, st.isDirectory, startsWithDot (posixParse p).base, st.size⟩ :
        FileMetadata) :: ms, ?_, ?_⟩
    · simp only [mapME, hcall, hms]
    · simp [hmap]

/-! ### Ancestor path enumeration -/

/-- The fullpaths `subpaths` is expected to produce on a normalized absolute
path with components `comps`: the root, then each successive prefix of the
components joined under the root. -/
def ancestorPaths (comps : List Str) : List Str :=
  (List.range (comps.length + 1)).map fun k =>
    if k = 0 then ['/'] else '/' :: intercalSep (comps.take k)

theorem posixJoin_take (comps : List Str) (h : ∀ s ∈ comps, SimpleSeg s) :
    (List.range (comps.length + 1)).map
        (fun k => posixJoin ((['/'] :: comps).take (k + 1)))
      = ancestorPaths comps := by
  unfold ancestorPaths
  apply List.map_congr_left
  intro k hk
  simp only [List.mem_range] at hk
  cases k with
  | zero =>
    have h0 : posixJoin [['/']] = ['/'] := by decide
    simpa using h0
  | succ j =>
    have htake : (['/'] :: comps).take (j + 1 + 1) = ['/'] :: comps.take (j + 1) := rfl
    have hsub : ∀ s ∈ comps.take (j + 1), SimpleSeg s :=
      fun s hs => h s (List.take_subset _ _ hs)
    have hne : comps.take (j + 1) ≠ [] := by
      have h1 : (comps.take (j + 1)).length = min (j + 1) comps.length :=
        List.length_take _ _
      intro he
      rw [he] at h1
      simp only [List.length_nil] at h1
      omega
    rw [htake, posixJoin_root_comps (comps.take (j + 1)) hsub, if_neg hne]
    simp

theorem ancestorPaths_norm (comps : List Str) (hc : ∀ s ∈ comps, SimpleSeg s) :
    ∀ p ∈ ancestorPaths comps, p ≠ [] ∧ posixNormalize p = p := by
  intro p hp
  unfold ancestorPaths at hp
  obtain ⟨k, hk, rfl⟩ := List.mem_map.mp hp
  simp only [List.mem_range] at hk
  cases k with
  | zero => exact ⟨by simp, by simpa using posixNormalize_root⟩
  | succ j =>
    have hsub : ∀ s ∈ comps.take (j + 1), SimpleSeg s :=
      fun s hs => hc s (List.take_subset _ _ hs)
    have hne : comps.take (j + 1) ≠ [] := by
      have h1 : (comps.take (j + 1)).length = min (j + 1) comps.length :=
        List.length_take _ _
      intro he
      rw [he] at h1
      simp only [List.length_nil] at h1
      omega
    constructor
    · simp
    · simpa using posixNormalize_abs (comps.take (j + 1)) hsub hne

theorem subpathDirs_abs (comps : List Str) (hc : ∀ s ∈ comps, SimpleSeg s)
    (hne : comps ≠ []) :
    subpathDirs ('/' :: intercalSep comps) = ['/'] :: comps := by
  have hsplit : splitSep ('/' :: intercalSep comps) = [] :: comps := by
    rw [splitSep_cons_sep, splitSep_intercal comps hne (fun s hs => (hc s hs).2.1)]
  have hfilter : (['/'] :: comps).filter (fun s => s ≠ []) = ['/'] :: comps := by
    rw [List.filter_eq_self]
    intro a ha
    rcases List.mem_cons.mp ha with h1 | h1
    · simp [h1]
    · simpa using (hc a h1).1
  simp only [subpathDirs]
  rw [hsplit]
  show ((if ([] : Str) = [] then ['/'] else []) :: comps).filter (fun s => s ≠ [])
    = ['/'] :: comps
  rw [if_pos rfl]
  exact hfilter

theorem subpaths_eval (fs : FS) (comps : List Str)
    (hc : ∀ s ∈ comps, SimpleSeg s) (hne : comps ≠ [])
    (hok : ∀ p ∈ ancestorPaths comps, isOkE (fs.lstat p) = true) :
    ∃ ms, subpaths fs (.str ('/' :: intercalSep comps)) = .ok (some ms) ∧
      ms.map (fun m => m.fullpath) = ancestorPaths comps ∧
      ms.length = comps.length + 1 := by
  have hdirs := subpathDirs_abs comps hc hne
  have hpaths : ∀ p ∈ ancestorPaths comps,
      p ≠ [] ∧ posixNormalize p = p ∧ isOkE (fs.lstat p) = true := by
    intro p hp
    obtain ⟨h1, h2⟩ := ancestorPaths_norm comps hc p hp
    exact ⟨h1, h2, hok p hp⟩
  obtain ⟨ms, hms, hmap⟩ := mapME_meta_fullpaths fs (ancestorPaths comps) hpaths
  have hbridge :
      mapME (fun index => getFileMetadataSync fs (posixJoin ((['/'] :: comps).take (index + 1))) [])
          (List.range (comps.length + 1))
        = mapME (fun p => getFileMetadataSync fs p []) (ancestorPaths comps) := by
    rw [← posixJoin_take comps hc, mapME_map]
  refine ⟨ms, ?_, hmap, ?_⟩
  · simp only [subpaths, hdirs, List.length_cons, hbridge, hms]
    rfl
  · have := congrArg List.length hmap
    simpa [ancestorPaths] using this

/-! ### Further bridging lemmas -/

/-- The extension exactly as the specification's claim words it: the
substring of `n` after the last `'.'` (with the leading dot stripped), and
`""` when `n` contains no `'.'`. -/
def specAfterLastDot (n : Str) : Str :=
  match lastDotSplit n with
  | some (_, post) => post
  | none => []

theorem lastDotSplit_structure :
    ∀ n : Str, ∀ pre post, lastDotSplit n = some (pre, post) → n = pre ++ '.' :: post
  | [], pre, post, h => by simp [lastDotSplit] at h
  | c :: cs, pre, post, h => by
    rw [lastDotSplit] at h
    cases hcs : lastDotSplit cs with
    | some pp =>
      obtain ⟨p1, p2⟩ := pp
      rw [hcs] at h
      simp only [Option.some.injEq, Prod.mk.injEq] at h
      obtain ⟨h1, h2⟩ := h
      have := lastDotSplit_structure cs p1 p2 hcs
      subst h2
      rw [← h1, this]
      rfl
    | none =>
      rw [hcs] at h
      have h2 : (if c = '.' then some (([] : Str), cs) else none) = some (pre, post) := h
      by_cases hc : c = '.'
      · rw [if_pos hc] at h2
        simp only [Option.some.injEq, Prod.mk.injEq] at h2
        obtain ⟨h1, h3⟩ := h2
        rw [← h1, ← h3, hc]
        rfl
      · rw [if_neg hc] at h2
        cases h2

theorem dotExtension_not_dotfile (n : Str) (hd : startsWithDot n = false) :
    dotExtension n = specAfterLastDot n := by
  unfold dotExtension specAfterLastDot
  cases h : lastDotSplit n with
  | none => rfl
  | some pp =>
    obtain ⟨pre, post⟩ := pp
    by_cases hpre : pre = []
    · exfalso
      subst hpre
      have := lastDotSplit_structure n [] post h
      rw [this] at hd
      simp [startsWithDot] at hd
    · simp [hpre]

theorem getFileMetadataAsync_fullpath (fs : FS) (d b : Str) (m : FileMetadata)
    (hm : getFileMetadataAsync fs d b = .ok m) : m.fullpath = posixJoin [d, b] := by
  simp only [getFileMetadataAsync] at hm
  cases hl : fs.lstat (posixJoin [d, b]) with
  | error e => rw [hl] at hm; cases hm
  | ok st =>
    rw [hl] at hm
    have h2 : Except.ok (ε := JSError)
        (⟨(posixParse (posixJoin [d, b])).base, (posixParse (posixJoin [d, b])).dir,
          posixJoin [d, b], removeFirstDot (posixParse (posixJoin [d, b])).ext,
          (posixParse (posixJoin [d, b])).name, st.isDirectory,
          startsWithDot (posixParse (posixJoin [d, b])).base, st.size⟩ : FileMetadata)
        = .ok m := hm
    injection h2 with h3
    rw [← h3]

/-! ### A concrete filesystem used to exercise the theorems -/

/-- A small concrete filesystem: directory `/a` holds `b.txt` (3 bytes), a
subdirectory `sub`, and the dotfile `.gitignore`; `/a/b/c` exists for the
subpath enumeration; `/denied` fails with `EACCES`; everything else is
absent (`ENOENT`); `/empty` is an empty readable directory. -/
def fsDemo : FS where
  statSync := fun p =>
    if p = "/a".data then .ok ⟨true, 4096⟩
    else if p = "/a/b.txt".data then .ok ⟨false, 3⟩
    else if p = "/denied".data then .error (.fsError "EACCES")
    else .error (.fsError "ENOENT")
  lstat := fun p =>
    if p = "/".data then .ok ⟨true, 4096⟩
    else if p = "/a".data then .ok ⟨true, 4096⟩
    else if p = "/a/b.txt".data then .ok ⟨false, 3⟩
    else if p = "/a/sub".data then .ok ⟨true, 4096⟩
    else if p = "/a/.gitignore".data then .ok ⟨false, 12⟩
    else if p = "/a/b".data then .ok ⟨true, 4096⟩
    else if p = "/a/b/c".data then .ok ⟨false, 7⟩
    else .error (.fsError "ENOENT")
  readdir := fun p =>
    if p = "/a".data then .ok ["b.txt".data, "sub".data, ".gitignore".data]
    else if p = "/empty".data then .ok []
    else .error (.fsError "ENOENT")

/-! ### The claims -/

/-- C2: `exists(p)` returns `false` exactly when the status query for `p`
fails with the not-found code `ENOENT`; it returns `true` when the query
succeeds and when it fails for any other reason (permission denied, I/O
error, or the codeless `TypeError` a non-string input provokes).  Being a
total Boolean-valued function of the query's outcome — the `try`/`catch`
converts every throw into a Boolean — it propagates no exception. -/
theorem exists_false_iff_enoent (fs : FS) (v : JSVal) :
    (filesExists fs v = false ↔
      ∃ e, FS.statSyncVal fs v = .error e ∧ e.code = some "ENOENT") ∧
    (∀ st, FS.statSyncVal fs v = .ok st → filesExists fs v = true) ∧
    (∀ e, FS.statSyncVal fs v = .error e → e.code ≠ some "ENOENT" →
      filesExists fs v = true) ∧
    (JSVal.isStr v = false → filesExists fs v = true) := by
  refine ⟨?_, ?_, ?_, ?_⟩
  · cases hsv : fs.statSyncVal v with
    | ok st => simp [filesExists, hsv]
    | error e =>
      simp only [filesExists, hsv]
      simp [Except.error.injEq]
  · intro st hst
    simp [filesExists, hst]
  · intro e he hcode
    simp [filesExists, he, hcode]
  · intro hv
    cases v with
    | str s => simp [JSVal.isStr] at hv
    | num n => rfl
    | boolVal b => rfl
    | nullVal => rfl
    | undefinedVal => rfl

/-- Witness for C2 at the non-string input `42` over the demo filesystem. -/
theorem exists_false_iff_enoent_witness :
    JSVal.isStr (JSVal.num 42) = false ∧ filesExists fsDemo (JSVal.num 42) = true :=
  ⟨by decide, (exists_false_iff_enoent fsDemo (JSVal.num 42)).2.2.2 (by decide)⟩

/-- C5: over every fixed filesystem state, the blocking form and the
suspending form of the metadata builder are the same function: the same
record (all eight fields) when the status query succeeds, and failure with
the same error when it fails. -/
theorem getFileMetadata_sync_async_agree (fs : FS) (dirname basename : Str) :
    getFileMetadataSync fs dirname basename = getFileMetadataAsync fs dirname basename :=
  getFileMetadata_sync_eq_async fs dirname basename

/-- C4: when the metadata lookup succeeds on a normalized absolute directory
and a plain name `n`, the record's `isHidden` flag is exactly the
leading-dot test on `n`. -/
theorem getFileMetadata_isHidden_iff (fs : FS) (pre : List Str) (n : Str)
    (hpre : ∀ s ∈ pre, SimpleSeg s) (hn : SimpleSeg n)
    (m : FileMetadata) (hm : getFileMetadataSync fs (dirOf pre) n = .ok m) :
    m.isHidden = startsWithDot n := by
  rw [getFileMetadataSync_simple fs pre n hpre hn] at hm
  cases hl : fs.lstat ('/' :: intercalSep (pre ++ [n])) with
  | error e => rw [hl] at hm; cases hm
  | ok st =>
    rw [hl] at hm
    have h2 : Except.ok (ε := JSError)
        (⟨n, dirOf pre, '/' :: intercalSep (pre ++ [n]), dotExtension n, dotName n,
          st.isDirectory, startsWithDot n, st.size⟩ : FileMetadata) = .ok m := hm
    injection h2 with h3
    rw [← h3]

/-- Witness for C4 at the dotfile `.gitignore` inside `/a`. -/
theorem getFileMetadata_isHidden_iff_witness :
    (∀ s ∈ (["a".data] : List Str), SimpleSeg s) ∧ SimpleSeg ".gitignore".data ∧
    getFileMetadataSync fsDemo (dirOf ["a".data]) ".gitignore".data =
      .ok ⟨".gitignore".data, "/a".data, "/a/.gitignore".data, [], ".gitignore".data,
        false, true, 12⟩ ∧
    (⟨".gitignore".data, "/a".data, "/a/.gitignore".data, [], ".gitignore".data,
        false, true, 12⟩ : FileMetadata).isHidden = startsWithDot ".gitignore".data :=
  ⟨by decide, by decide, by decide,
    getFileMetadata_isHidden_iff fsDemo ["a".data] ".gitignore".data
      (by decide) (by decide) _ (by decide)⟩

/-- C3 as stated is false on the code: for the pure dotfile `.gitignore`
(directory `/a` of the demo filesystem) the lookup succeeds and the record
has extension `""` and name `".gitignore"`, whereas the claim asserts the
extension is always the substring after the last dot — here `"gitignore"` —
and that the dotfile's name is `""`.  Node's parse gives a leading-dot-only
base no extension at all. -/
theorem getFileMetadata_dotfile_counterexample :
    getFileMetadataSync fsDemo "/a".data ".gitignore".data =
      .ok ⟨".gitignore".data, "/a".data, "/a/.gitignore".data, [], ".gitignore".data,
        false, true, 12⟩ ∧
    specAfterLastDot ".gitignore".data = "gitignore".data ∧
    ([] : Str) ≠ "gitignore".data ∧ ".gitignore".data ≠ ([] : Str) :=
  ⟨by decide, by decide, by decide, by decide⟩

/-- C3 amended: on a normalized absolute directory and a plain name `n`, a
successful lookup reports as extension the substring after the last dot of
`n` when that dot is not `n`'s first character, and `""` when `n` has no dot
or is a pure dotfile (last dot in front, e.g. `.gitignore`); the name is the
complementary piece — all of `n` for dotfiles and dotless names.  In
particular, whenever `n` does not start with a dot the extension is exactly
the substring after the last dot, as the original claim said. -/
theorem getFileMetadata_extension_name (fs : FS) (pre : List Str) (n : Str)
    (hpre : ∀ s ∈ pre, SimpleSeg s) (hn : SimpleSeg n)
    (m : FileMetadata) (hm : getFileMetadataSync fs (dirOf pre) n = .ok m) :
    m.extension = dotExtension n ∧ m.name = dotName n ∧
    (startsWithDot n = false → m.extension = specAfterLastDot n) := by
  rw [getFileMetadataSync_simple fs pre n hpre hn] at hm
  cases hl : fs.lstat ('/' :: intercalSep (pre ++ [n])) with
  | error e => rw [hl] at hm; cases hm
  | ok st =>
    rw [hl] at hm
    have h2 : Except.ok (ε := JSError)
        (⟨n, dirOf pre, '/' :: intercalSep (pre ++ [n]), dotExtension n, dotName n,
          st.isDirectory, startsWithDot n, st.size⟩ : FileMetadata) = .ok m := hm
    injection h2 with h3
    rw [← h3]
    exact ⟨rfl, rfl, fun hd => dotExtension_not_dotfile n hd⟩

/-- Witness for the amended C3 at `b.txt` inside `/a`. -/
theorem getFileMetadata_extension_name_witness :
    getFileMetadataSync fsDemo (dirOf ["a".data]) "b.txt".data =
      .ok ⟨"b.txt".data, "/a".data, "/a/b.txt".data, "txt".data, "b".data,
        false, false, 3⟩ ∧
    ((⟨"b.txt".data, "/a".data, "/a/b.txt".data, "txt".data, "b".data,
        false, false, 3⟩ : FileMetadata).extension = dotExtension "b.txt".data ∧
      (⟨"b.txt".data, "/a".data, "/a/b.txt".data, "txt".data, "b".data,
        false, false, 3⟩ : FileMetadata).name = dotName "b.txt".data ∧
      (startsWithDot "b.txt".data = false →
        (⟨"b.txt".data, "/a".data, "/a/b.txt".data, "txt".data, "b".data,
          false, false, 3⟩ : FileMetadata).extension = specAfterLastDot "b.txt".data)) :=
  ⟨by decide,
    getFileMetadata_extension_name fsDemo ["a".data] "b.txt".data
      (by decide) (by decide) _ (by decide)⟩

/-- C6: when every individual lookup succeeds, the batch returns, for every
completion order of the concurrent status queries, the same list: one record
per input name, in input order, the i-th being the metadata the suspending
builder produces for `join(d, n_i)` (whose `fullpath` field is that join). -/
theorem getAllFilesMetadata_input_order (fs : FS) (d : Str) (bs : List Str)
    (h : ∀ b ∈ bs, isOkE (getFileMetadataAsync fs d b) = true) :
    ∃ ms, (∀ order, getAllFilesMetadataAsync fs d bs order = .ok ms) ∧
      ms.length = bs.length ∧
      (∀ i, ms.get? i = (bs.get? i).bind fun b => exToOption (getFileMetadataAsync fs d b)) ∧
      (∀ i b m, bs.get? i = some b → ms.get? i = some m →
        getFileMetadataAsync fs d b = .ok m ∧ m.fullpath = posixJoin [d, b]) := by
  refine ⟨bs.filterMap fun b => exToOption (getFileMetadataAsync fs d b), ?_, ?_, ?_, ?_⟩
  · intro order
    exact bluebirdMap_all_ok _ bs order h
  · exact filterMap_ok_length _ bs h
  · exact filterMap_ok_get? _ bs h
  · intro i b m hb hmi
    rw [filterMap_ok_get? _ bs h i, hb] at hmi
    have hb2 : exToOption (getFileMetadataAsync fs d b) = some m := hmi
    have hok : getFileMetadataAsync fs d b = .ok m := by
      cases hfb : getFileMetadataAsync fs d b with
      | error e => rw [hfb] at hb2; cases hb2
      | ok y =>
        rw [hfb] at hb2
        have hsome : some y = some m := hb2
        injection hsome with hy
        rw [hy]
    exact ⟨hok, getFileMetadataAsync_fullpath fs d b m hok⟩

/-- Witness for C6 over the demo filesystem: both lookups succeed and the
results come back in input order for two different completion orders. -/
theorem getAllFilesMetadata_input_order_witness :
    (∀ b ∈ (["b.txt".data, "sub".data] : List Str),
      isOkE (getFileMetadataAsync fsDemo "/a".data b) = true) ∧
    (∃ ms, (∀ order, getAllFilesMetadataAsync fsDemo "/a".data
        ["b.txt".data, "sub".data] order = .ok ms) ∧
      ms.length = (["b.txt".data, "sub".data] : List Str).length ∧
      (∀ i, ms.get? i = ((["b.txt".data, "sub".data] : List Str).get? i).bind
        fun b => exToOption (getFileMetadataAsync fsDemo "/a".data b)) ∧
      (∀ i b m, (["b.txt".data, "sub".data] : List Str).get? i = some b →
        ms.get? i = some m →
        getFileMetadataAsync fsDemo "/a".data b = .ok m ∧
          m.fullpath = posixJoin ["/a".data, b])) :=
  ⟨by decide, getAllFilesMetadata_input_order fsDemo "/a".data
    ["b.txt".data, "sub".data] (by decide)⟩

/-- C7: fail-fast batch semantics.  If any constituent lookup of
`getAllFilesMetadata` fails, the whole batch rejects with a constituent
lookup's error and never yields a (partial) result list; likewise
`getDirectoryContents` rejects with its constituent call's error — in this
module that call is the undefined `exports.getFileMetadata`, whose
`TypeError` is the constituent failure — and never yields a partial list. -/
theorem batch_fail_fast (fs : FS) (d : Str) (order : List Nat) :
    (∀ bs : List Str, (∀ i < bs.length, i ∈ order) →
      (∃ b ∈ bs, isOkE (getFileMetadataAsync fs d b) = false) →
      ∃ e, (∃ b ∈ bs, getFileMetadataAsync fs d b = .error e) ∧
        getAllFilesMetadataAsync fs d bs order = .error e ∧
        ∀ ms, getAllFilesMetadataAsync fs d bs order ≠ .ok ms) ∧
    (∀ contents : List Str, fs.readdir d = .ok contents →
      (∀ i < contents.length, i ∈ order) →
      (∃ b ∈ contents, isOkE (getFileMetadataUndefined d b) = false) →
      ∃ e, (∃ b ∈ contents, getFileMetadataUndefined d b = .error e) ∧
        getDirectoryContents fs d order = .error e ∧
        ∀ ms, getDirectoryContents fs d order ≠ .ok ms) := by
  constructor
  · intro bs hcov hfail
    obtain ⟨e, hmap, hwit⟩ :=
      bluebirdMap_fail (fun b => getFileMetadataAsync fs d b) bs order hcov hfail
    refine ⟨e, hwit, hmap, ?_⟩
    intro ms hms
    rw [getAllFilesMetadataAsync] at hms
    rw [hms] at hmap
    cases hmap
  · intro contents hr hcov hfail
    obtain ⟨e, hmap, hwit⟩ :=
      bluebirdMap_fail (fun b => getFileMetadataUndefined d b) contents order hcov hfail
    have hgdc : getDirectoryContents fs d order =
        bluebirdMap (fun b => getFileMetadataUndefined d b) contents order := by
      simp only [getDirectoryContents, hr]
    refine ⟨e, hwit, by rw [hgdc, hmap], ?_⟩
    intro ms hms
    rw [hgdc, hmap] at hms
    cases hms

/-- Witness for C7: `/a` contains `zz` in neither form; the batch over
`["b.txt", "zz"]` fails as a whole with the `ENOENT` of `zz`, and the
directory listing of `/a` fails as a whole with the `TypeError`. -/
theorem batch_fail_fast_witness :
    ((∃ b ∈ (["b.txt".data, "zz".data] : List Str),
        isOkE (getFileMetadataAsync fsDemo "/a".data b) = false) ∧
      ∃ e, (∃ b ∈ (["b.txt".data, "zz".data] : List Str),
          getFileMetadataAsync fsDemo "/a".data b = .error e) ∧
        getAllFilesMetadataAsync fsDemo "/a".data ["b.txt".data, "zz".data] [1, 0]
          = .error e ∧
        ∀ ms, getAllFilesMetadataAsync fsDemo "/a".data ["b.txt".data, "zz".data] [1, 0]
          ≠ .ok ms) ∧
    ∃ e, (∃ b ∈ (["b.txt".data, "sub".data, ".gitignore".data] : List Str),
        getFileMetadataUndefined "/a".data b = .error e) ∧
      getDirectoryContents fsDemo "/a".data [0, 1, 2] = .error e ∧
      ∀ ms, getDirectoryContents fsDemo "/a".data [0, 1, 2] ≠ .ok ms :=
  ⟨⟨by decide, (batch_fail_fast fsDemo "/a".data [1, 0]).1
      ["b.txt".data, "zz".data] (by decide) (by decide)⟩,
    (batch_fail_fast fsDemo "/a".data [0, 1, 2]).2
      ["b.txt".data, "sub".data, ".gitignore".data] (by decide) (by decide) (by decide)⟩

/-- C8: for an absolute path assembled from `k ≥ 1` plain components, all of
whose ancestor levels are statable, `subpaths` returns `k + 1` records whose
`fullpath` values are, in order, the root `"/"` followed by each successive
prefix of the path, the last being the full path itself. -/
theorem subpaths_ancestor_fullpaths (fs : FS) (comps : List Str)
    (hc : ∀ s ∈ comps, SimpleSeg s) (hne : comps ≠ [])
    (hok : ∀ p ∈ ancestorPaths comps, isOkE (fs.lstat p) = true) :
    ∃ ms, subpaths fs (.str ('/' :: intercalSep comps)) = .ok (some ms) ∧
      ms.length = comps.length + 1 ∧
      ms.map (fun m => m.fullpath) = ancestorPaths comps ∧
      (ancestorPaths comps).getLast? = some ('/' :: intercalSep comps) := by
  obtain ⟨ms, h1, h2, h3⟩ := subpaths_eval fs comps hc hne hok
  refine ⟨ms, h1, h3, h2, ?_⟩
  unfold ancestorPaths
  have hlen : comps.length ≠ 0 := fun h0 => hne (List.length_eq_zero.mp h0)
  rw [List.range_succ, List.map_append, List.map_singleton, List.getLast?_concat,
    if_neg hlen, List.take_length]

/-- Witness for C8 at `/a/b/c` over the demo filesystem. -/
theorem subpaths_ancestor_fullpaths_witness :
    (∀ s ∈ (["a".data, "b".data, "c".data] : List Str), SimpleSeg s) ∧
    (∀ p ∈ ancestorPaths ["a".data, "b".data, "c".data],
      isOkE (fsDemo.lstat p) = true) ∧
    (∃ ms, subpaths fsDemo
        (.str ('/' :: intercalSep ["a".data, "b".data, "c".data])) = .ok (some ms) ∧
      ms.length = (["a".data, "b".data, "c".data] : List Str).length + 1 ∧
      ms.map (fun m => m.fullpath) = ancestorPaths ["a".data, "b".data, "c".data] ∧
      (ancestorPaths ["a".data, "b".data, "c".data]).getLast?
        = some ('/' :: intercalSep ["a".data, "b".data, "c".data])) :=
  ⟨by decide, by decide,
    subpaths_ancestor_fullpaths fsDemo ["a".data, "b".data, "c".data]
      (by decide) (by decide) (by decide)⟩

/-- C9: a non-string input to `subpaths` yields `null` (no error is raised —
the result is a successful `null`), and the result does not depend on the
filesystem state at all: the type guard returns before any query. -/
theorem subpaths_nonstring_null (fs : FS) (v : JSVal) (hv : JSVal.isStr v = false) :
    subpaths fs v = .ok none ∧ ∀ fs₂ : FS, subpaths fs₂ v = subpaths fs v := by
  cases v with
  | str s => simp [JSVal.isStr] at hv
  | num n => exact ⟨rfl, fun fs₂ => rfl⟩
  | boolVal b => exact ⟨rfl, fun fs₂ => rfl⟩
  | nullVal => exact ⟨rfl, fun fs₂ => rfl⟩
  | undefinedVal => exact ⟨rfl, fun fs₂ => rfl⟩

/-- Witness for C9 at the number `42`. -/
theorem subpaths_nonstring_null_witness :
    JSVal.isStr (JSVal.num 42) = false ∧ subpaths fsDemo (JSVal.num 42) = .ok none :=
  ⟨by decide, (subpaths_nonstring_null fsDemo (JSVal.num 42) (by decide)).1⟩

/-- C10: `getDirectoryContents` maps each entry through the never-assigned
module property `exports.getFileMetadata`; consequently, on every readable
directory it resolves to the empty sequence when the listing is empty and
rejects with the `TypeError` when the listing has at least one entry,
whatever the filesystem state of the entries (the entries' stats are never
consulted). -/
theorem getDirectoryContents_undefined_export (fs : FS) (d : Str) (order : List Nat)
    (contents : List Str) (hr : fs.readdir d = .ok contents)
    (hcov : ∀ i < contents.length, i ∈ order) :
    (contents = [] → getDirectoryContents fs d order = .ok []) ∧
    (contents ≠ [] → getDirectoryContents fs d order = .error .typeError) := by
  have hgdc : getDirectoryContents fs d order =
      bluebirdMap (fun b => getFileMetadataUndefined d b) contents order := by
    simp only [getDirectoryContents, hr]
  constructor
  · intro hc
    subst hc
    rw [hgdc, bluebirdMap_all_ok _ [] order (by intro x hx; cases hx)]
    rfl
  · intro hc
    obtain ⟨b0, hb0⟩ : ∃ b0, b0 ∈ contents := by
      cases contents with
      | nil => exact absurd rfl hc
      | cons x xs => exact ⟨x, by simp⟩
    obtain ⟨e, hmap, x, hx, hfx⟩ :=
      bluebirdMap_fail (fun b => getFileMetadataUndefined d b) contents order hcov
        ⟨b0, hb0, rfl⟩
    have he : e = .typeError := by
      have h2 : Except.error (α := FileMetadata) JSError.typeError = .error e := hfx
      injection h2 with h3
      exact h3.symm
    rw [hgdc, hmap, he]

/-- Witness for C10: the non-empty listing of `/a` rejects with the
`TypeError`; the empty listing of `/empty` resolves to `[]`. -/
theorem getDirectoryContents_undefined_export_witness :
    (fsDemo.readdir "/a".data = .ok ["b.txt".data, "sub".data, ".gitignore".data] ∧
      getDirectoryContents fsDemo "/a".data [0, 1, 2] = .error .typeError) ∧
    (fsDemo.readdir "/empty".data = .ok [] ∧
      getDirectoryContents fsDemo "/empty".data [] = .ok []) :=
  ⟨⟨by decide,
      (getDirectoryContents_undefined_export fsDemo "/a".data [0, 1, 2]
        ["b.txt".data, "sub".data, ".gitignore".data] (by decide) (by decide)).2
        (by decide)⟩,
    ⟨by decide,
      (getDirectoryContents_undefined_export fsDemo "/empty".data [] []
        (by decide) (by decide)).1 rfl⟩⟩

/-- C1 evaluated at its failing input: the demo directory `/a` is readable
with three entries and every entry's path is statable, yet
`getDirectoryContents` rejects with the `TypeError` from invoking the
undefined `exports.getFileMetadata` — it does not resolve to one metadata
record per entry as its own JSDoc describes. -/
theorem getDirectoryContents_no_records :
    getDirectoryContents fsDemo "/a".data [0, 1, 2] = .error .typeError ∧
    fsDemo.readdir "/a".data = .ok ["b.txt".data, "sub".data, ".gitignore".data] ∧
    (∀ b ∈ (["b.txt".data, "sub".data, ".gitignore".data] : List Str),
      isOkE (fsDemo.lstat (posixJoin ["/a".data, b])) = true) :=
  ⟨by decide, by decide, by decide⟩

end Etcher
